import Mathlib

/-!
Shallow embedding of the backlink scoring engine (src/app.py) and proofs of
the specification claims.  Strings are modelled as `List Char`, numbers as `ℚ`
(the Python floats of the source), tabular rows as structures.  The pandas
`sort_values(by='Score', ascending=False)` call is modelled by its
`nargsort` semantics: reverse the list, argsort ascending, reverse the
result.  The ascending argsort is modelled as a stable insertion sort; numpy's
default quicksort guarantees no tie order beyond its small-array
insertion-sort threshold, so tie order is a modelling assumption here and
only tie-order-invariant properties are claimed of the sorted passes.
-/

namespace BacklinkScorer

/-- Lowercase a string, modelling Python `str.lower()` (per-character). -/
def toLowerL (s : List Char) : List Char := s.map Char.toLower

/-- Uppercase a string, modelling Python `str.upper()` (per-character). -/
def toUpperL (s : List Char) : List Char := s.map Char.toUpper

/-- Substring containment, modelling Python `needle in haystack` on strings. -/
def isSubstr (need hay : List Char) : Bool :=
  (List.range (hay.length + 1)).any (fun i => ((hay.drop i).take need.length) == need)

/-- Word splitter, modelling Python `str.split()` with no argument: splits on
runs of whitespace and drops empty chunks; `acc` holds the current word
reversed. -/
def splitWordsAux : List Char → List Char → List (List Char)
  | acc, [] => if acc.isEmpty then [] else [acc.reverse]
  | acc, c :: cs =>
    if c.isWhitespace then
      if acc.isEmpty then splitWordsAux [] cs else acc.reverse :: splitWordsAux [] cs
    else splitWordsAux (c :: acc) cs

/-- Python `str.split()` with no argument. -/
def splitWords (s : List Char) : List (List Char) := splitWordsAux [] s

/-- Comma splitter, modelling Python `str.split(',')`: splits at every comma
and keeps empty chunks. -/
def splitComma : List Char → List (List Char)
  | [] => [[]]
  | c :: cs =>
    if c = ',' then [] :: splitComma cs
    else
      match splitComma cs with
      | [] => [[c]]
      | w :: ws => (c :: w) :: ws

/-- Python `str.strip()`: remove leading and trailing whitespace. -/
def stripWS (s : List Char) : List Char :=
  ((s.dropWhile Char.isWhitespace).reverse.dropWhile Char.isWhitespace).reverse

/-- Keyword list built from the anchor-keyword text input (app.py line 124):
`[keyword.strip() for keyword in anchor_input.split(',')] if anchor_input else []`. -/
def anchor_keywords_of (anchor_input : List Char) : List (List Char) :=
  if anchor_input = [] then [] else (splitComma anchor_input).map stripWS

/-- Python banker's rounding of a rational to the nearest integer
(`round` / numpy `.round`): round half to even. -/
def pyRound (x : ℚ) : ℤ :=
  let f : ℤ := ⌊x⌋
  let r : ℚ := x - (f : ℚ)
  if r < 1/2 then f
  else if 1/2 < r then f + 1
  else if f % 2 = 0 then f else f + 1

/-- Rounding to one decimal place, modelling Python `round(x, 1)`. -/
def round1 (x : ℚ) : ℚ := ((pyRound (10 * x) : ℤ) : ℚ) / 10

/-- Normalization of a metric onto the 0-10 scale (app.py lines 9-10). -/
def normalize (value min_value max_value : ℚ) : ℚ :=
  10 * (value - min_value) / (max_value - min_value)

/-- A cleaned input row of the uploaded table (after `clean_data`): the
columns consumed by the scoring engine.  `title` is `none` when the cell is
not a string (pandas `NaN`), matching the `isinstance(title, str)` check. -/
structure Row where
  title : Option (List Char)
  url : List Char
  domain_rating : ℚ
  ur : ℚ
  referring_domains : ℚ
  page_traffic : ℚ
  anchor : List Char
  link_type : List Char
  nofollow : List Char
  sponsored : List Char
  lost_date : List Char
  deriving DecidableEq

/-- The scoring weights dictionary built in the sidebar (app.py lines 102-112). -/
structure Weights where
  DR : ℚ
  UR : ℚ
  RD : ℚ
  Traffic : ℚ
  deriving DecidableEq

/-- Weight normalization of the four slider values (app.py lines 102-112):
divide by the total, or fall back to 0.25 each when the total is 0. -/
def make_weights (dr_weight ur_weight rd_weight traffic_weight : ℚ) : Weights :=
  let total := dr_weight + ur_weight + rd_weight + traffic_weight
  if total = 0 then ⟨1/4, 1/4, 1/4, 1/4⟩
  else ⟨dr_weight / total, ur_weight / total, rd_weight / total, traffic_weight / total⟩

/-- The string `'TRUE'` used by the exclusion checks (app.py line 58). -/
def trueStr : List Char := "TRUE".toList

/-- Exclusion condition of `calculate_score` (app.py line 58):
nofollow, sponsored, or a non-empty lost date. -/
def excluded (row : Row) : Bool :=
  toUpperL row.nofollow == trueStr || toUpperL row.sponsored == trueStr ||
    !row.lost_date.isEmpty

/-- Title relevance scoring (app.py lines 44-54): non-strings score 0, an
exact (case-insensitive) substring match scores 1.0, a match of any single
word of the keyword scores 0.5, otherwise -1.0. -/
def title_relevance_score (title : Option (List Char)) (keyword : List Char) : ℚ :=
  match title with
  | none => 0
  | some t =>
    let title_lower := toLowerL t
    let keyword_lower := toLowerL keyword
    if isSubstr keyword_lower title_lower then 1
    else if (splitWords keyword_lower).any (fun part => isSubstr part title_lower) then 1/2
    else -1

/-- Anchor-keyword bonus (app.py line 66): the number of keywords occurring
(case-insensitively) in the anchor text. -/
def anchor_bonus (row : Row) (anchor_keywords : List (List Char)) : ℕ :=
  anchor_keywords.countP (fun keyword => isSubstr (toLowerL keyword) (toLowerL row.anchor))

/-- Link-type adjustment (app.py line 68): +2 for `text`, -2 for `image` or
`nav`, 0 otherwise. -/
def link_type_adjustment (row : Row) : ℚ :=
  if row.link_type = "text".toList then 2
  else if row.link_type = "image".toList ∨ row.link_type = "nav".toList then -2
  else 0

/-- Per-record score (app.py lines 57-82): 0 for excluded records, otherwise
the weighted sum of the four normalized metrics plus the anchor bonus (weight
0.10), the link-type adjustment (weight 0.05) and the unweighted title bonus,
rounded to one decimal. -/
def calculate_score (row : Row) (anchor_keywords : List (List Char)) (weights : Weights) : ℚ :=
  if excluded row then 0
  else
    let normalized_dr := normalize row.domain_rating 0 100
    let normalized_ur := normalize row.ur 0 100
    let normalized_rd := normalize row.referring_domains 0 5000
    let normalized_traffic := normalize row.page_traffic 0 1000000
    let ab : ℚ := (anchor_bonus row anchor_keywords : ℚ)
    let lta := link_type_adjustment row
    let title_bonus : ℚ :=
      match anchor_keywords with
      | [] => 0
      | k :: _ => title_relevance_score row.title k
    round1 (normalized_dr * weights.DR + normalized_ur * weights.UR +
      normalized_rd * weights.RD + normalized_traffic * weights.Traffic +
      ab * (1/10) + lta * (1/20) + title_bonus)

/-- Everything of `calculate_score` except the exclusion rule and the title
bonus: the weighted metric sum plus the anchor and link-type contributions
(app.py lines 74-79 without `title_bonus`). -/
def metric_core (row : Row) (anchor_keywords : List (List Char)) (weights : Weights) : ℚ :=
  normalize row.domain_rating 0 100 * weights.DR + normalize row.ur 0 100 * weights.UR +
    normalize row.referring_domains 0 5000 * weights.RD +
    normalize row.page_traffic 0 1000000 * weights.Traffic +
    (anchor_bonus row anchor_keywords : ℚ) * (1/10) + link_type_adjustment row * (1/20)

/-- Characters allowed in a URL scheme (`urllib.parse.scheme_chars`). -/
def scheme_char (c : Char) : Bool := c.isAlphanum || c = '+' || c = '-' || c = '.'

/-- Split a string at its first colon, returning the parts before and after. -/
def split_at_colon : List Char → Option (List Char × List Char)
  | [] => none
  | c :: cs =>
    if c = ':' then some ([], cs)
    else
      match split_at_colon cs with
      | none => none
      | some (b, a) => some (c :: b, a)

/-- Scheme removal of `urllib.parse.urlsplit`: when the text before the first
colon is a non-empty valid scheme starting with a letter, drop it together
with the colon. -/
def drop_scheme (url : List Char) : List Char :=
  match split_at_colon url with
  | none => url
  | some (b, a) =>
    if b ≠ [] ∧ (b.headD ' ').isAlpha ∧ b.all scheme_char then a else url

/-- Host extraction, modelling `urlparse(url).netloc` (app.py line 139): after
scheme removal, a URL starting with `//` yields the characters up to the next
`/`, `?` or `#`; anything else yields the empty netloc. -/
def netloc (url : List Char) : List Char :=
  match drop_scheme url with
  | '/' :: '/' :: rest => rest.takeWhile (fun c => !(c = '/' || c = '?' || c = '#'))
  | _ => []

/-- A row of the scored table: original position, URL, derived domain and
current score (columns `Referring page URL`, `Domain`, `Score`). -/
structure PRow where
  idx : ℕ
  url : List Char
  domain : List Char
  score : ℚ
  deriving DecidableEq

/-- An entry of the domain summary (app.py lines 158-161). -/
structure DEntry where
  domain : List Char
  domain_score : ℚ
  link_count : ℕ
  deriving DecidableEq

/-- Stable insertion of an element into a list: it goes before the first
element it is `le`-related to. -/
def ordInsert (le : α → α → Bool) (a : α) : List α → List α
  | [] => [a]
  | b :: l => if le a b then a :: b :: l else b :: ordInsert le a l

/-- Stable insertion sort (ascending with respect to `le`). -/
def insSort (le : α → α → Bool) : List α → List α
  | [] => []
  | a :: l => ordInsert le a (insSort le l)

/-- Boolean comparison by a rational key. -/
def leKey (key : α → ℚ) (a b : α) : Bool := decide (key a ≤ key b)

/-- Descending sort by a rational key, modelling pandas
`sort_values(ascending=False)`: `nargsort` reverses the values, argsorts them
ascending, and reverses the resulting indexer.  The ascending argsort is
modelled as a stable insertion sort, which is exact for the mergesort/stable
kinds and for the default quicksort only below numpy's insertion-sort
threshold; beyond it numpy's introsort gives no tie-order guarantee, so the
stability of this model is an assumption, not a property of the code, and
the theorems below state only tie-order-invariant properties of the sorted
passes. -/
def sortDescBy (key : α → ℚ) (l : List α) : List α :=
  (insSort (leKey key) l.reverse).reverse

/-- The global score-descending sort of the scored table (app.py line 140). -/
def sortDesc (l : List PRow) : List PRow := sortDescBy (fun r => r.score) l

/-- Duplicate-domain penalty walk over the sorted table (app.py lines
141-142): `seen` holds the domains already encountered, so a record whose
domain is in `seen` has `cumcount` rank at least 1 and is halved and
re-rounded; a first occurrence is kept as is. -/
def penalizeFrom : List (List Char) → List PRow → List PRow
  | _, [] => []
  | seen, r :: rs =>
    (if r.domain ∈ seen then { r with score := round1 (r.score * (1/2)) } else r) ::
      penalizeFrom (r.domain :: seen) rs

/-- The duplicate-domain penalty pass (app.py lines 140-142): sort by score
descending, then halve every record ranked ≥ 1 within its domain. -/
def penalize (l : List PRow) : List PRow := penalizeFrom [] (sortDesc l)

/-- Domain computation (app.py line 139):
`df['Domain'] = df['Referring page URL'].apply(lambda x: urlparse(x).netloc)`. -/
def with_domain (l : List PRow) : List PRow :=
  l.map (fun r => { r with domain := netloc r.url })

/-- Top-10 links view over the penalized table (app.py line 153): keep the
records with positive score, sort by score descending, take the first 10. -/
def top_links (p : List PRow) : List PRow :=
  (sortDescBy (fun r => r.score) (p.filter (fun r => decide (0 < r.score)))).take 10

/-- Position column of the top-10 view (app.py line 155):
1-based consecutive positions in the sorted order. -/
def top_links_pos (p : List PRow) : List (ℕ × PRow) :=
  (List.range' 1 (top_links p).length).zip (top_links p)

/-- Lexicographic comparison of strings (the ascending order pandas `groupby`
uses for its group keys). -/
def lexLe : List Char → List Char → Bool
  | [], _ => true
  | _ :: _, [] => false
  | a :: as, b :: bs => if a = b then lexLe as bs else decide (a < b)

/-- The group keys of `df.groupby('Domain')`: the distinct domains of the
table, in ascending order. -/
def group_domains (p : List PRow) : List (List Char) :=
  insSort lexLe ((p.map (fun r => r.domain)).dedup)

/-- Domain summary (app.py lines 158-161): per domain the sum of scores and
the count of records, sorted by domain score descending, first 10 rows. -/
def domain_summary (p : List PRow) : List DEntry :=
  (sortDescBy (fun e => e.domain_score)
    ((group_domains p).map (fun d =>
      { domain := d,
        domain_score := ((p.filter (fun r => decide (r.domain = d))).map (fun r => r.score)).sum,
        link_count := (p.filter (fun r => decide (r.domain = d))).length }))).take 10

/-- The outputs of a successful run of the dashboard pipeline. -/
structure Output where
  scored : List PRow
  overall_score : ℚ
  total_links : ℕ
  top : List (ℕ × PRow)
  summary : List DEntry

/-- The whole scoring pipeline on a validated batch (app.py lines 136-161):
per-row scores, domains, duplicate-domain penalty, overall score, top-10
links and domain summary. -/
def run_pipeline (rows : List Row) (anchor_keywords : List (List Char)) (weights : Weights) :
    Output :=
  let scored := rows.enum.map (fun pr =>
    PRow.mk pr.1 pr.2.url [] (calculate_score pr.2 anchor_keywords weights))
  let pen := penalize (with_domain scored)
  { scored := pen,
    overall_score := round1 ((pen.map (fun r => r.score)).sum),
    total_links := rows.length,
    top := top_links_pos pen,
    summary := domain_summary pen }

/-- The required columns of the uploaded table (app.py lines 132-133). -/
def required_columns : List (List Char) :=
  [ "Referring page title".toList, "Referring page URL".toList, "Domain rating".toList,
    "UR".toList, "Referring domains".toList, "Page traffic".toList, "Anchor".toList,
    "Link Type".toList, "Nofollow".toList, "Sponsored".toList, "Lost Date".toList,
    "First Seen".toList, "Last Seen".toList ]

/-- Batch entry point with validation (app.py lines 135-179): when every
required column is present the pipeline runs, otherwise the batch is rejected
(`st.error`) and nothing is computed. -/
def process (cols : List (List Char)) (rows : List Row)
    (anchor_keywords : List (List Char)) (weights : Weights) : Option Output :=
  if required_columns.all (fun c => decide (c ∈ cols)) then
    some (run_pipeline rows anchor_keywords weights)
  else none

/-! Lemmas about the stable insertion sort. -/

theorem mem_ordInsert {α : Type} (le : α → α → Bool) (a c : α) :
    ∀ l : List α, c ∈ ordInsert le a l ↔ c = a ∨ c ∈ l := by
  intro l
  induction l with
  | nil => simp [ordInsert]
  | cons b l ih =>
    rcases Bool.eq_false_or_eq_true (le a b) with h | h <;>
      simp [ordInsert, h, ih, List.mem_cons] <;> tauto

theorem ordInsert_perm {α : Type} (le : α → α → Bool) (a : α) :
    ∀ l : List α, List.Perm (ordInsert le a l) (a :: l) := by
  intro l
  induction l with
  | nil => exact List.Perm.refl _
  | cons b l ih =>
    rcases Bool.eq_false_or_eq_true (le a b) with h | h
    · have hred : ordInsert le a (b :: l) = a :: b :: l := by simp [ordInsert, h]
      rw [hred]
    · have hred : ordInsert le a (b :: l) = b :: ordInsert le a l := by simp [ordInsert, h]
      rw [hred]
      exact (ih.cons b).trans (List.Perm.swap a b l)

theorem insSort_perm {α : Type} (le : α → α → Bool) :
    ∀ l : List α, List.Perm (insSort le l) l := by
  intro l
  induction l with
  | nil => exact List.Perm.refl _
  | cons a l ih => exact (ordInsert_perm le a (insSort le l)).trans (ih.cons a)

theorem pairwise_ordInsert {α : Type} (key : α → ℚ) (P : α → α → Prop) (a : α) :
    ∀ l : List α, l.Pairwise (fun x y => key x < key y ∨ (key x = key y ∧ P x y)) →
      (∀ b ∈ l, key a = key b → P a b) →
      (ordInsert (leKey key) a l).Pairwise
        (fun x y => key x < key y ∨ (key x = key y ∧ P x y)) := by
  intro l
  induction l with
  | nil => intro _ _; simp [ordInsert]
  | cons b l ih =>
    intro hp ha
    rw [List.pairwise_cons] at hp
    obtain ⟨hb, hl⟩ := hp
    rcases Bool.eq_false_or_eq_true (leKey key a b) with h | h
    · have hab : key a ≤ key b := of_decide_eq_true (by simpa [leKey] using h)
      have hred : ordInsert (leKey key) a (b :: l) = a :: b :: l := by
        simp [ordInsert, h]
      rw [hred, List.pairwise_cons]
      constructor
      · intro c hc
        have hbc : key b ≤ key c := by
          rcases List.mem_cons.mp hc with rfl | hc
          · exact le_refl _
          · rcases hb c hc with h1 | h1
            · exact le_of_lt h1
            · exact le_of_eq h1.1
        rcases lt_or_eq_of_le (le_trans hab hbc) with h1 | h1
        · exact Or.inl h1
        · exact Or.inr ⟨h1, ha c hc h1⟩
      · exact List.pairwise_cons.mpr ⟨hb, hl⟩
    · have hba : key b < key a := lt_of_not_le (of_decide_eq_false (by simpa [leKey] using h))
      have hred : ordInsert (leKey key) a (b :: l) = b :: ordInsert (leKey key) a l := by
        simp [ordInsert, h]
      rw [hred, List.pairwise_cons]
      constructor
      · intro c hc
        rcases (mem_ordInsert (leKey key) a c l).mp hc with rfl | hc
        · exact Or.inl hba
        · exact hb c hc
      · exact ih hl (fun c hc hkey => ha c (List.mem_cons_of_mem b hc) hkey)

theorem pairwise_insSort {α : Type} (key : α → ℚ) (P : α → α → Prop) :
    ∀ l : List α, l.Pairwise P →
      (insSort (leKey key) l).Pairwise
        (fun x y => key x < key y ∨ (key x = key y ∧ P x y)) := by
  intro l
  induction l with
  | nil => intro _; simp [insSort]
  | cons a l ih =>
    intro hp
    rw [List.pairwise_cons] at hp
    obtain ⟨h1, h2⟩ := hp
    simp only [insSort]
    refine pairwise_ordInsert key P a _ (ih h2) ?_
    intro b hb _
    exact h1 b ((insSort_perm (leKey key) l).mem_iff.mp hb)

theorem pairwise_true {α : Type} : ∀ l : List α, l.Pairwise (fun _ _ => True) := by
  intro l
  induction l with
  | nil => exact List.Pairwise.nil
  | cons a l ih => exact List.Pairwise.cons (fun _ _ => trivial) ih

theorem sortDescBy_perm {α : Type} (key : α → ℚ) (l : List α) :
    List.Perm (sortDescBy key l) l :=
  ((List.reverse_perm _).trans (insSort_perm _ _)).trans (List.reverse_perm l)

theorem pairwise_sortDescBy {α : Type} (key : α → ℚ) (P : α → α → Prop) (l : List α)
    (h : l.Pairwise P) :
    (sortDescBy key l).Pairwise (fun a b => key b < key a ∨ (key b = key a ∧ P a b)) := by
  unfold sortDescBy
  rw [List.pairwise_reverse]
  exact pairwise_insSort key (fun a b => P b a) _ (List.pairwise_reverse.mpr h)

theorem sortDescBy_pairwise_le {α : Type} (key : α → ℚ) (l : List α) :
    (sortDescBy key l).Pairwise (fun a b => key b ≤ key a) := by
  refine (pairwise_sortDescBy key (fun _ _ => True) l (pairwise_true l)).imp ?_
  intro a b h
  rcases h with h | h
  · exact le_of_lt h
  · exact le_of_eq h.1

/-! Claims. -/

/-- Claim C1: a record with nofollow `TRUE`, or sponsored `TRUE`, or a
non-empty lost date scores exactly 0, whatever its other fields, the keyword
list and the weights. -/
theorem claim_C1 (row : Row) (anchor_keywords : List (List Char)) (weights : Weights)
    (h : toUpperL row.nofollow = trueStr ∨ toUpperL row.sponsored = trueStr ∨
      row.lost_date ≠ []) :
    calculate_score row anchor_keywords weights = 0 := by
  have hex : excluded row = true := by
    rcases h with h | h | h <;> simp [excluded, h]
  simp [calculate_score, hex]

theorem claim_C1_witness :
    calculate_score (Row.mk (some []) [] 50 50 100 1000 [] [] ['t', 'r', 'u', 'e'] [] [])
      [] (Weights.mk 1 1 1 1) = 0 :=
  claim_C1 _ [] (Weights.mk 1 1 1 1) (Or.inl (by decide))

/-- Claim C4: for non-negative slider inputs the weights used in scoring sum
to 1; a positive raw sum divides each weight by the sum, a zero raw sum falls
back to 0.25 each. -/
theorem claim_C4 (dr ur rd tr : ℚ) (h1 : 0 ≤ dr) (h2 : 0 ≤ ur) (h3 : 0 ≤ rd) (h4 : 0 ≤ tr) :
    (make_weights dr ur rd tr).DR + (make_weights dr ur rd tr).UR +
        (make_weights dr ur rd tr).RD + (make_weights dr ur rd tr).Traffic = 1 ∧
      (0 < dr + ur + rd + tr →
        make_weights dr ur rd tr =
          Weights.mk (dr / (dr + ur + rd + tr)) (ur / (dr + ur + rd + tr))
            (rd / (dr + ur + rd + tr)) (tr / (dr + ur + rd + tr))) ∧
      (dr + ur + rd + tr = 0 →
        make_weights dr ur rd tr = Weights.mk (1/4) (1/4) (1/4) (1/4)) := by
  by_cases h0 : dr + ur + rd + tr = 0
  · refine ⟨?_, ?_, ?_⟩
    · simp [make_weights, h0]
      norm_num
    · intro hpos
      exact absurd h0 (ne_of_gt hpos)
    · intro _
      simp [make_weights, h0]
  · refine ⟨?_, ?_, ?_⟩
    · simp only [make_weights, h0, if_false]
      field_simp
    · intro _
      simp [make_weights, h0]
    · intro hz
      exact absurd hz h0

theorem claim_C4_witness :
    (make_weights 2 0 0 0).DR + (make_weights 2 0 0 0).UR +
      (make_weights 2 0 0 0).RD + (make_weights 2 0 0 0).Traffic = 1 :=
  (claim_C4 2 0 0 0 (by norm_num) (le_refl 0) (le_refl 0) (le_refl 0)).1

/-- Claim C7: `normalize` is the affine map `10 * (v - lo) / (hi - lo)`, sends
the bounds to 0 and 10, and applies no clamping: values outside the bounds
land outside `[0, 10]`. -/
theorem claim_C7 (v lo hi : ℚ) (h : lo < hi) :
    normalize v lo hi = 10 * (v - lo) / (hi - lo) ∧
      normalize lo lo hi = 0 ∧ normalize hi lo hi = 10 ∧
      (v < lo → normalize v lo hi < 0) ∧ (hi < v → 10 < normalize v lo hi) := by
  have hd : 0 < hi - lo := sub_pos.mpr h
  refine ⟨rfl, ?_, ?_, ?_, ?_⟩
  · simp [normalize]
  · unfold normalize
    field_simp
  · intro hv
    unfold normalize
    apply div_neg_of_neg_of_pos _ hd
    nlinarith
  · intro hv
    unfold normalize
    rw [lt_div_iff₀ hd]
    nlinarith

theorem claim_C7_witness :
    normalize 0 0 100 = 0 ∧ normalize 100 0 100 = 10 ∧
      normalize 5000 0 5000 = 10 ∧ normalize 1000000 0 1000000 = 10 :=
  ⟨(claim_C7 0 0 100 (by norm_num)).2.1, (claim_C7 0 0 100 (by norm_num)).2.2.1,
    (claim_C7 0 0 5000 (by norm_num)).2.2.1,
    (claim_C7 0 0 1000000 (by norm_num)).2.2.1⟩

theorem isSubstr_nil (hay : List Char) : isSubstr [] hay = true := by
  unfold isSubstr
  rw [List.any_eq_true]
  exact ⟨0, List.mem_range.mpr (Nat.succ_pos _), by simp⟩

/-- Claim C10: an empty first keyword (from a leading comma in the keyword
input) gives every string-titled record the +1.0 exact-match bonus, because
the empty string is a substring of every string, while a non-string title
still gets bonus 0, not -1.0. -/
theorem claim_C10 (s t k : List Char) :
    (anchor_keywords_of (',' :: s)).head? = some [] ∧
      title_relevance_score (some t) [] = 1 ∧
      title_relevance_score none k = 0 := by
  refine ⟨?_, ?_, rfl⟩
  · simp [anchor_keywords_of, splitComma, stripWS]
  · simp [title_relevance_score, toLowerL, isSubstr_nil]

/-- Claim C5: the title bonus compares the title against the first keyword
only, is +1.0 on a case-insensitive substring match, +0.5 when a single word
of the keyword matches, -1.0 otherwise, is added unweighted on top of the
metric core, and only when the keyword list is non-empty. -/
theorem claim_C5 (row : Row) (k : List Char) (rest : List (List Char)) (w : Weights)
    (t : List Char) (hex : excluded row = false) :
    calculate_score row (k :: rest) w =
        round1 (metric_core row (k :: rest) w + title_relevance_score row.title k) ∧
      title_relevance_score (some t) k =
        (if isSubstr (toLowerL k) (toLowerL t) then (1 : ℚ)
         else if (splitWords (toLowerL k)).any (fun part => isSubstr part (toLowerL t))
           then 1/2 else -1) ∧
      calculate_score row [] w = round1 (metric_core row [] w) := by
  refine ⟨?_, rfl, ?_⟩
  · simp only [calculate_score, hex, Bool.false_eq_true, if_false]
    congr 1
    all_goals simp only [metric_core]
    all_goals ring
  · simp only [calculate_score, hex, Bool.false_eq_true, if_false]
    congr 1
    all_goals simp only [metric_core]
    all_goals ring

theorem claim_C5_witness :
    title_relevance_score (some (['d', 'o', 'g'])) ['c', 'a', 't'] =
      (if isSubstr (toLowerL ['c', 'a', 't']) (toLowerL ['d', 'o', 'g']) then (1 : ℚ)
       else if (splitWords (toLowerL ['c', 'a', 't'])).any
           (fun part => isSubstr part (toLowerL ['d', 'o', 'g']))
         then 1/2 else -1) :=
  (claim_C5 (Row.mk (some ['d', 'o', 'g']) [] 0 0 0 0 [] [] [] [] [])
    ['c', 'a', 't'] [] (Weights.mk 1 1 1 1) ['d', 'o', 'g'] (by decide)).2.1

/-- Claim C9: a batch missing any required column is rejected outright: the
pipeline does not run and no output of any kind is produced. -/
theorem claim_C9 (cols : List (List Char)) (rows : List Row)
    (anchor_keywords : List (List Char)) (weights : Weights) (c : List Char)
    (hc : c ∈ required_columns) (hm : c ∉ cols) :
    process cols rows anchor_keywords weights = none := by
  have hfail : ¬(required_columns.all (fun c => decide (c ∈ cols)) = true) := by
    intro hall
    exact hm (of_decide_eq_true (List.all_eq_true.mp hall c hc))
  simp only [process, if_neg hfail]

theorem claim_C9_witness :
    process [] [] [] (Weights.mk 1 1 1 1) = none :=
  claim_C9 [] [] [] (Weights.mk 1 1 1 1) ( "Referring page title".toList)
    (by decide) (List.not_mem_nil _)

theorem penalizeFrom_getElem (r : PRow) (s₂ : List PRow) :
    ∀ (s₁ : List PRow) (seen : List (List Char)),
      (penalizeFrom seen (s₁ ++ r :: s₂))[s₁.length]? =
        some (if r.domain ∈ seen ++ s₁.map (fun x => x.domain) then
          { r with score := round1 (r.score * (1/2)) } else r) := by
  intro s₁
  induction s₁ with
  | nil =>
    intro seen
    simp [penalizeFrom]
  | cons a s₁ ih =>
    intro seen
    have hcons : penalizeFrom seen ((a :: s₁) ++ r :: s₂) =
        (if a.domain ∈ seen then { a with score := round1 (a.score * (1/2)) } else a) ::
          penalizeFrom (a.domain :: seen) (s₁ ++ r :: s₂) := by
      simp [penalizeFrom]
    have hlen : (a :: s₁).length = s₁.length + 1 := rfl
    rw [hcons, hlen, List.getElem?_cons_succ, ih (a.domain :: seen)]
    have hiff : (r.domain ∈ (a.domain :: seen) ++ s₁.map (fun x => x.domain)) ↔
        (r.domain ∈ seen ++ (a :: s₁).map (fun x => x.domain)) := by
      simp [List.mem_append, List.mem_cons]
      tauto
    by_cases hc : r.domain ∈ seen ++ (a :: s₁).map (fun x => x.domain)
    · rw [if_pos (hiff.mpr hc), if_pos hc]
    · rw [if_neg (fun hmem => hc (hiff.mp hmem)), if_neg hc]

/-- Claim C2: in the duplicate-domain penalty pass, the record at any position
of the score-descending order keeps its score when its domain has not occurred
earlier in that order (rank 0), and otherwise has its score halved and
re-rounded to one decimal. -/
theorem claim_C2 (l s₁ s₂ : List PRow) (r : PRow) (h : sortDesc l = s₁ ++ r :: s₂) :
    (penalize l)[s₁.length]? =
      some (if r.domain ∈ s₁.map (fun x => x.domain) then
        { r with score := round1 (r.score * (1/2)) } else r) := by
  have hg := penalizeFrom_getElem r s₂ s₁ []
  rw [List.nil_append] at hg
  simpa [penalize, h] using hg

theorem claim_C2_witness :
    (penalize [PRow.mk 0 [] ['d'] 8, PRow.mk 1 [] ['d'] 6])[1]? =
      some (PRow.mk 1 [] ['d'] 3) := by
  have h := claim_C2 [PRow.mk 0 [] ['d'] 8, PRow.mk 1 [] ['d'] 6]
    [PRow.mk 0 [] ['d'] 8] [] (PRow.mk 1 [] ['d'] 6)
    (by norm_num [sortDesc, sortDescBy, insSort, ordInsert, leKey])
  refine h.trans ?_
  rw [if_pos (by decide)]
  norm_num [round1, pyRound]

/-- Claim C6: the top-links view keeps only records with strictly positive
score, is sorted by score descending, has at most 10 entries, and carries
1-based consecutive positions. -/
theorem claim_C6 (p : List PRow) :
    (∀ r ∈ top_links p, 0 < r.score) ∧
      (top_links p).Pairwise (fun a b => b.score ≤ a.score) ∧
      (top_links p).length ≤ 10 ∧
      (top_links_pos p).map Prod.fst = List.range' 1 (top_links p).length := by
  refine ⟨?_, ?_, ?_, ?_⟩
  · intro r hr
    have h1 : r ∈ sortDescBy (fun r => r.score) (p.filter (fun r => decide (0 < r.score))) :=
      List.mem_of_mem_take hr
    have h2 : r ∈ p.filter (fun r => decide (0 < r.score)) :=
      (sortDescBy_perm _ _).mem_iff.mp h1
    exact of_decide_eq_true (List.mem_filter.mp h2).2
  · exact (sortDescBy_pairwise_le _ _).sublist (List.take_sublist _ _)
  · exact List.length_take_le _ _
  · exact List.map_fst_zip _ _ (by simp)

theorem claim_C6_witness :
    0 < (PRow.mk 0 [] ['d'] 5).score ∧ (top_links [PRow.mk 0 [] ['d'] 5]).length ≤ 10 :=
  ⟨(claim_C6 [PRow.mk 0 [] ['d'] 5]).1 (PRow.mk 0 [] ['d'] 5) (by decide),
    (claim_C6 [PRow.mk 0 [] ['d'] 5]).2.2.1⟩

theorem penalizeFrom_countP (d : List Char) :
    ∀ (m : List PRow) (seen : List (List Char)),
      (penalizeFrom seen m).countP (fun r => decide (r.domain = d)) =
        m.countP (fun r => decide (r.domain = d)) := by
  intro m
  induction m with
  | nil => intro seen; rfl
  | cons r rs ih =>
    intro seen
    by_cases hm : r.domain ∈ seen <;>
      simp [penalizeFrom, hm, List.countP_cons, ih]

theorem penalize_countP (d : List Char) (l : List PRow) :
    (penalize l).countP (fun r => decide (r.domain = d)) =
      l.countP (fun r => decide (r.domain = d)) := by
  unfold penalize
  rw [penalizeFrom_countP d (sortDesc l) []]
  exact (sortDescBy_perm _ l).countP_eq _

theorem with_domain_countP (d : List Char) (l₀ : List PRow) :
    (with_domain l₀).countP (fun r => decide (r.domain = d)) =
      l₀.countP (fun r => decide (netloc r.url = d)) := by
  unfold with_domain
  rw [List.countP_map]
  rfl

theorem penalizeFrom_map_du :
    ∀ (m : List PRow) (seen : List (List Char)),
      (penalizeFrom seen m).map (fun r => (r.domain, r.url)) =
        m.map (fun r => (r.domain, r.url)) := by
  intro m
  induction m with
  | nil => intro seen; rfl
  | cons r rs ih =>
    intro seen
    by_cases hm : r.domain ∈ seen <;> simp [penalizeFrom, hm, ih]

theorem penalize_domain_eq (l₀ : List PRow) :
    ∀ r ∈ penalize (with_domain l₀), r.domain = netloc r.url := by
  intro r hr
  have h1 : (r.domain, r.url) ∈
      (penalize (with_domain l₀)).map (fun r => (r.domain, r.url)) :=
    List.mem_map_of_mem _ hr
  have h2 : (r.domain, r.url) ∈
      (sortDesc (with_domain l₀)).map (fun r => (r.domain, r.url)) := by
    rw [← penalizeFrom_map_du (sortDesc (with_domain l₀)) []]
    exact h1
  have h3 : (r.domain, r.url) ∈ (with_domain l₀).map (fun r => (r.domain, r.url)) :=
    ((sortDescBy_perm _ _).map _).mem_iff.mp h2
  rw [with_domain, List.map_map] at h3
  obtain ⟨r₀, _, heq⟩ := List.mem_map.mp h3
  have hd : netloc r₀.url = r.domain := congrArg Prod.fst heq
  have hu : r₀.url = r.url := congrArg Prod.snd heq
  rw [← hd, ← hu]

/-- Claim C8: every domain-summary entry counts all input records whose URL
host equals its domain (regardless of score) and carries the sum of their
post-penalty scores; the summary is sorted by domain score descending and
truncated to 10 entries. -/
theorem claim_C8 (l₀ : List PRow) (e : DEntry)
    (he : e ∈ domain_summary (penalize (with_domain l₀))) :
    e.link_count = (l₀.filter (fun r => decide (netloc r.url = e.domain))).length ∧
      e.domain_score = (((penalize (with_domain l₀)).filter
        (fun r => decide (r.domain = e.domain))).map (fun r => r.score)).sum ∧
      (∀ r ∈ penalize (with_domain l₀), r.domain = netloc r.url) ∧
      (domain_summary (penalize (with_domain l₀))).Pairwise
        (fun a b => b.domain_score ≤ a.domain_score) ∧
      (domain_summary (penalize (with_domain l₀))).length ≤ 10 := by
  unfold domain_summary at he
  have he1 := List.mem_of_mem_take he
  have he2 := (sortDescBy_perm _ _).mem_iff.mp he1
  obtain ⟨d, hd, rfl⟩ := List.mem_map.mp he2
  refine ⟨?_, rfl, penalize_domain_eq l₀, ?_, ?_⟩
  · show ((penalize (with_domain l₀)).filter (fun r => decide (r.domain = d))).length =
      (l₀.filter (fun r => decide (netloc r.url = d))).length
    rw [← List.countP_eq_length_filter, ← List.countP_eq_length_filter]
    exact (penalize_countP d (with_domain l₀)).trans (with_domain_countP d l₀)
  · exact (sortDescBy_pairwise_le _ _).sublist (List.take_sublist _ _)
  · exact List.length_take_le _ _

theorem claim_C8_witness :
    (DEntry.mk ['a'] 5 1).link_count =
      ([PRow.mk 0 ['h', 't', 't', 'p', ':', '/', '/', 'a'] [] 5].filter
        (fun r => decide (netloc r.url = (DEntry.mk ['a'] 5 1).domain))).length := by
  have hmem : (DEntry.mk ['a'] 5 1) ∈
      domain_summary (penalize (with_domain
        [PRow.mk 0 ['h', 't', 't', 'p', ':', '/', '/', 'a'] [] 5])) := by
    norm_num [domain_summary, group_domains, penalize, sortDesc, sortDescBy, insSort,
      ordInsert, leKey, lexLe, penalizeFrom, with_domain, netloc, drop_scheme,
      split_at_colon, scheme_char]
    decide
  exact (claim_C8 [PRow.mk 0 ['h', 't', 't', 'p', ':', '/', '/', 'a'] [] 5]
    (DEntry.mk ['a'] 5 1) hmem).1

end BacklinkScorer
